import Mathlib

/-!
Verification of the concurrency/data-model core of the `ssl-py-tools`
repository (packages `cmmus_gym` and `vision_filter`).

Shallow embedding conventions:
* Python `dict` objects with integer keys are modelled as association lists
  `List (Int × α)` together with `dictInsert`, which mirrors `d[k] = v`
  (replace in place if the key is present, append otherwise).
* Machine floats are modelled as `ℚ` for the affine/clamping arithmetic of
  `RawMovementAction.to_proto` and `BasicBallFilter.predict`, and as `ℝ` for
  the trigonometric aggregation functions of `RobotFilter`.
* Fallible Python code (exceptions) is modelled with `Except`.
-/

namespace SslPyTools

/-- Python `d[k] = v` when `k` is already a key of `d`: the entry keeps its
position in insertion order and its value is replaced. -/
def replaceKey {α : Type} (d : List (Int × α)) (k : Int) (v : α) : List (Int × α) :=
  d.map (fun e => if e.1 = k then (k, v) else e)

/-- Python `d[k] = v` on a dict held as an insertion-ordered association
list: replace in place if present, append otherwise. -/
def dictInsert {α : Type} (d : List (Int × α)) (k : Int) (v : α) : List (Int × α) :=
  if d.any (fun e => decide (e.1 = k)) then replaceKey d k v else d ++ [(k, v)]

/-- All entries of `d` whose key is `k` (a well-formed dict has at most one). -/
def entriesFor {α : Type} (d : List (Int × α)) (k : Int) : List (Int × α) :=
  d.filter (fun e => decide (e.1 = k))

/-- The keys of the dict, in insertion order. -/
def keys {α : Type} (d : List (Int × α)) : List Int :=
  d.map (fun e => e.1)

/-- Build a dict from a list of key/value assignments performed in order,
starting from the empty dict. -/
def buildDict {α : Type} (l : List (Int × α)) : List (Int × α) :=
  l.foldl (fun s e => dictInsert s e.1 e.2) []

/-! ## Actions (`cmmus_gym/actions/core.py`, `cmmus_gym/actions/threaded.py`) -/

/-- Mirrors the `RawMovementAction` dataclass: a robot id and a
wheel-velocity vector (nominally in `[-1, 1]`, length 4). -/
structure RawMovementAction where
  robot_id : Int
  wheel_velocities : List ℚ
deriving DecidableEq

/-- Truncation toward zero, the behaviour of numpy `astype` from a float
type to an integer type. -/
def truncQ (q : ℚ) : Int :=
  if 0 ≤ q then ⌊q⌋ else ⌈q⌉

/-- Mirrors `np.clip(q, lo, hi)`. -/
def clip (q lo hi : ℚ) : ℚ :=
  max lo (min q hi)

/-- Reinterpretation of an arbitrary integer as a signed 8-bit value
(two's complement wraparound), the effect of `astype(np.int8)` on the
truncated value. -/
def int8OfInt (n : Int) : Int :=
  (n + 128) % 256 - 128

/-- One component of `RawMovementAction.to_proto`:
`np.clip(127 * w, -127, 127).astype(np.int8)`. -/
def encodeWheel (w : ℚ) : Int :=
  int8OfInt (truncQ (clip (127 * w) (-127) 127))

/-- The wire encoding of a whole wheel-velocity vector. -/
def encodeWheels (ws : List ℚ) : List Int :=
  ws.map encodeWheel

/-- The command buffer `RawMovementActionClient._actions`:
a dict from robot id to the most recently set action. -/
abbrev Buffer := List (Int × RawMovementAction)

/-- Mirrors `RawMovementActionClient.set_action` (threaded variant):
`self._actions[action.robot_id] = action`, with no validation of the
robot id or of the wheel-velocity range. -/
def set_action (buf : Buffer) (a : RawMovementAction) : Buffer :=
  dictInsert buf a.robot_id a

/-- Mirrors `RawMovementActionClient.reset_action`: `self._actions.clear()`. -/
def reset_action (_ : Buffer) : Buffer := []

/-- The buffer obtained from a sequence of `set_action` calls starting from
the empty buffer. -/
def applyCalls (calls : List RawMovementAction) : Buffer :=
  calls.foldl set_action []

/-- Mirrors the encoding step of `__generate_actions`: for every action in
the buffer, `command.to_proto(action_message)` writes the encoded wheel
velocities into the proto map `message.commands` at key `command.robot_id`.
The proto map is itself modelled as a dict. -/
def generateActions (buf : Buffer) : List (Int × List Int) :=
  buf.foldl (fun msg e => dictInsert msg e.2.robot_id (encodeWheels e.2.wheel_velocities)) []

/-! ## Observation cache (`cmmus_gym/observations/threaded.py`, `trio.py`)

Detection frames are identified by a tag (`Nat`); the cache
`RawVisionObservations.__detections` maps a camera id to the most recent
frame for that camera. -/

/-- One event at the observation cache: an update from the receive loop
(`frame.CopyFrom(wrapper_packet.detection)` under the lock) or a
clone-and-clear read (`get_latest` / `clone`). -/
inductive CacheOp where
  | update (cam : Int) (tag : Nat)
  | read
deriving DecidableEq

/-- The cache contents after running `ops` from state `s`: updates
overwrite the slot of their camera, a read clears the whole map. -/
def stateAfterFrom (s : List (Int × Nat)) (ops : List CacheOp) : List (Int × Nat) :=
  ops.foldl (fun st op =>
    match op with
    | .update c t => dictInsert st c t
    | .read => []) s

/-- The cache contents after running `ops` from the empty cache. -/
def stateAfter (ops : List CacheOp) : List (Int × Nat) :=
  stateAfterFrom [] ops

/-- The sequence of maps returned by the clone-and-clear reads in `ops`,
starting from cache state `s`: a read returns the current map and leaves
the empty map behind, in one critical section. -/
def readsFrom (s : List (Int × Nat)) : List CacheOp → List (List (Int × Nat))
  | [] => []
  | .update c t :: rest => readsFrom (dictInsert s c t) rest
  | .read :: rest => s :: readsFrom [] rest

/-- The read results of a whole run from the empty cache. -/
def cacheReads (ops : List CacheOp) : List (List (Int × Nat)) :=
  readsFrom [] ops

/-- The update events of `ops` that happened after the last read (all of
them when `ops` has no read). -/
def updatesSinceLastRead (ops : List CacheOp) : List (Int × Nat) :=
  ops.foldl (fun acc op =>
    match op with
    | .update c t => acc ++ [(c, t)]
    | .read => []) []

/-- The frame tags of all update events of `ops`, in order. -/
def updateTags (ops : List CacheOp) : List Nat :=
  ops.filterMap (fun op =>
    match op with
    | .update _ t => some t
    | .read => none)

/-! ## Channel fan-out (`vision_filter/net/ssl_vision_client.py`, `util.py`) -/

/-- One subscriber sink created by `create_detection_channel`: a trio
memory send channel. `broken` models the receiver end having been closed,
in which case `send` raises `trio.BrokenResourceError`. -/
structure Channel where
  cid : Nat
  broken : Bool
  queue : List (Int × Nat)
deriving DecidableEq

/-- Outcome of `chan.send(frame)` as captured by `outcome.acapture` in
`run_all`. -/
inductive SendResult where
  | ok (c : Channel)
  | brokenResource
deriving DecidableEq

/-- Mirrors `chan.send(wrapper_packet.detection)`: enqueue on a live
channel, raise `BrokenResourceError` on a channel whose receiver is gone. -/
def channelSend (ch : Channel) (f : Int × Nat) : SendResult :=
  if ch.broken then .brokenResource else .ok { ch with queue := ch.queue ++ [f] }

/-- Mirrors one delivery round of `recv_message` for a detection frame:
`run_all` attempts `send` on every registered channel (each outcome
depends only on its own channel), then the indices whose outcome was
`BrokenResourceError` are deleted in reverse order, which keeps exactly
the successful channels in their original order. -/
def publishDetection (reg : List Channel) (f : Int × Nat) : List Channel × List SendResult :=
  (reg.filterMap (fun ch =>
      match channelSend ch f with
      | .ok updated => some updated
      | .brokenResource => none),
   reg.map (fun ch => channelSend ch f))

/-- The registry left after publishing a sequence of detection frames. -/
def publishRounds (reg : List Channel) (fs : List (Int × Nat)) : List Channel :=
  fs.foldl (fun r f => (publishDetection r f).1) reg

/-! ## Receive loops (`observations/threaded.py` run, `ssl_vision_client.py` run) -/

/-- A received datagram, after the wire codec: either it fails to decode
as an `SSL_WrapperPacket` (`malformed`), or it carries a detection frame
for some camera, or a geometry frame. -/
inductive Datagram where
  | malformed
  | detection (cam : Int) (tag : Nat)
  | geometry (tag : Nat)
deriving DecidableEq

/-- Mirrors the threaded `RawVisionObservations.run` loop over a list of
received datagrams: a `DecodeError` is caught, logged and the loop
continues (`continue`); a detection overwrites the slot of its camera; a
geometry-only packet changes no cache slot. Returns the detection cache. -/
def threadedVisionRun (ds : List Datagram) : List (Int × Nat) :=
  ds.foldl (fun s d =>
    match d with
    | .malformed => s
    | .detection c t => dictInsert s c t
    | .geometry _ => s) []

/-- Mirrors `SSLVisionClient.run` (`while True: await self.recv_message()`)
over a list of received datagrams. `recv_message` has no handler around
`wrapper_packet.ParseFromString(data_view)`, so a decode failure
propagates out of `recv_message` and terminates the loop: this is
modelled as `Except.error` carrying the registry at the moment of the
crash. Geometry packets go to the (un-modelled) geometry channels and
leave the detection registry unchanged. -/
def sslClientRun (reg : List Channel) : List Datagram → Except (List Channel) (List Channel)
  | [] => .ok reg
  | .malformed :: _ => .error reg
  | .detection c t :: rest => sslClientRun (publishDetection reg (c, t)).1 rest
  | .geometry _ :: rest => sslClientRun reg rest

/-! ## Ball filter (`vision_filter/filter/ball.py`), over `ℚ` -/

/-- Mirrors `apply_deadzone`: components with `|value| < deadzone` are
zeroed, all others pass through. -/
def apply_deadzone (value deadzone : ℚ) : ℚ :=
  if |value| < deadzone then 0 else value

/-- Mirrors `np.sign` on one component. -/
def qsign (v : ℚ) : ℚ :=
  if 0 < v then 1 else if v < 0 then -1 else 0

/-- The per-axis control input computed at the top of
`BasicBallFilter.predict`:
`np.sign(apply_deadzone(velocity, friction_deadzone)) * friction_decel`. -/
def frictionInput (v deadzone decel : ℚ) : ℚ :=
  qsign (apply_deadzone v deadzone) * decel

/-- The constructor default `friction_decel = 0.07 * 9806.65`. -/
def defaultFrictionDecel : ℚ :=
  (7 / 100) * (980665 / 100)

/-- The constructor default `friction_deadzone = 1e-6`. -/
def defaultFrictionDeadzone : ℚ :=
  1 / 1000000

/-- The velocity row of the predict step `x' = F x + B u`: with
`F[1,1] = 1` and `B[1,0] = dt`, the new axis velocity is
`v + dt * u` where `u` is the friction control input. -/
def ballPredictVel (v dt deadzone decel : ℚ) : ℚ :=
  v + dt * frictionInput v deadzone decel

/-! ## Robot filter aggregation (`vision_filter/filter/robot.py`), over `ℝ` -/

/-- Mirrors `np.atan2` (on real numbers, with a single zero): the angle of
the vector `(x, y)` in `(-pi, pi]`. -/
noncomputable def atan2 (y x : ℝ) : ℝ :=
  if 0 < x then Real.arctan (y / x)
  else if x < 0 then
    (if 0 ≤ y then Real.arctan (y / x) + Real.pi else Real.arctan (y / x) - Real.pi)
  else
    (if 0 < y then Real.pi / 2 else if y < 0 then -(Real.pi / 2) else 0)

/-- Truncation toward zero on `ℝ`, the rounding used by C `fmod`. -/
noncomputable def truncR (r : ℝ) : Int :=
  if 0 ≤ r then ⌊r⌋ else ⌈r⌉

/-- Mirrors `np.fmod`: `fmod(a, b) = a - b * trunc(a / b)`. -/
noncomputable def fmodR (a b : ℝ) : ℝ :=
  a - b * (truncR (a / b) : ℝ)

/-- Mirrors `angle_mod`:
`-pi + fmod(2 pi + fmod(angle + pi, 2 pi), 2 pi)`, wrapping to `[-pi, pi)`. -/
noncomputable def angle_mod (angle : ℝ) : ℝ :=
  -Real.pi + fmodR (2 * Real.pi + fmodR (angle + Real.pi) (2 * Real.pi)) (2 * Real.pi)

/-- Mirrors `RobotFilter._x_mean_fn` on a list of weighted state sigma
points: every component is the `np.mean` of the weighted columns, and the
angle component (index 2) is replaced by the `atan2` of the averaged
weighted `(sin, cos)` pairs. -/
noncomputable def xMeanFn (sigmas : List (Fin 6 → ℝ)) (Wm : List ℝ) : Fin 6 → ℝ :=
  fun j =>
    if j = 2 then
      atan2 ((((sigmas.zip Wm).map (fun p => Real.sin (p.1 2) * p.2)).sum) / sigmas.length)
            ((((sigmas.zip Wm).map (fun p => Real.cos (p.1 2) * p.2)).sum) / sigmas.length)
    else
      (((sigmas.zip Wm).map (fun p => p.1 j * p.2)).sum) / sigmas.length

/-- Mirrors `RobotFilter._z_mean_fn` on measurement sigma points
`[x, y, theta]`. -/
noncomputable def zMeanFn (sigmas : List (Fin 3 → ℝ)) (Wm : List ℝ) : Fin 3 → ℝ :=
  fun j =>
    if j = 2 then
      atan2 ((((sigmas.zip Wm).map (fun p => Real.sin (p.1 2) * p.2)).sum) / sigmas.length)
            ((((sigmas.zip Wm).map (fun p => Real.cos (p.1 2) * p.2)).sum) / sigmas.length)
    else
      (((sigmas.zip Wm).map (fun p => p.1 j * p.2)).sum) / sigmas.length

/-- Mirrors `RobotFilter._residual_x`: `y = a - b` with the angle
component wrapped by `angle_mod`. -/
noncomputable def residualX (a b : Fin 6 → ℝ) : Fin 6 → ℝ :=
  fun i => if i = 2 then angle_mod (a 2 - b 2) else a i - b i

/-- Mirrors `RobotFilter._residual_z`. -/
noncomputable def residualZ (a b : Fin 3 → ℝ) : Fin 3 → ℝ :=
  fun i => if i = 2 then angle_mod (a 2 - b 2) else a i - b i

/-! ## Robot filter `set_state` (`vision_filter/filter/robot.py`), over `ℚ` -/

/-- The variance presets carried by `RobotFilterSettings` (the numeric
defaults of the known/unknown subclasses are irrelevant here). -/
structure RobotFilterSettings where
  position_variance : ℚ
  velocity_variance : ℚ
  angvel_variance : ℚ
  theta_variance : ℚ

/-- A Python exception raised by `set_state`. -/
inductive PyError where
  | valueError
  | attributeError
deriving DecidableEq

/-- Python truthiness of a numpy array of the given size (`if P:`): size 1
converts to the truth of the single element, size 0 is falsy, any larger
array raises `ValueError` (ambiguous truth value). -/
def ndarrayTruthy (size : Nat) (elemNonzero : Bool) : Except PyError Bool :=
  if size = 1 then .ok elemNonzero
  else if size = 0 then .ok false
  else .error .valueError

/-- The attribute names a `RobotFilter` method body may refer to:
`settings` stands for the attribute `_settings` assigned in `__init__`,
while `setings` stands for the misspelt name `_setings` that appears at
source line 126 and is never assigned anywhere. -/
inductive RobotFilterAttr where
  | log
  | settings
  | setings
  | x
  | P
  | Q
  | R
deriving DecidableEq

/-- The attributes actually assigned on a `RobotFilter` instance (by
`__init__` and the `UnscentedKalmanFilter` base constructor). The
misspelling `setings` is not among them. -/
def robotFilterAttrNames : List RobotFilterAttr :=
  [.log, .settings, .x, .P, .Q, .R]

/-- Python attribute lookup `self.<name>`: `AttributeError` when the
attribute was never assigned. -/
def getattrCheck (n : RobotFilterAttr) : Except PyError Unit :=
  if n ∈ robotFilterAttrNames then .ok () else .error .attributeError

/-- The default-covariance branch of `set_state` evaluates the list
`[self._settings.position_variance, self._setings.position_variance,
self._settings.theta_variance, 0, 0, 0]`; the second item misspells
`_settings` as `_setings` (source line 126), so evaluating the list
raises `AttributeError` before `np.diag` runs. -/
def defaultCovDiag (s : RobotFilterSettings) : Except PyError (List ℚ) := do
  let _ ← getattrCheck .settings
  let _ ← getattrCheck .setings
  let _ ← getattrCheck .settings
  pure [s.position_variance, s.position_variance, s.theta_variance, 0, 0, 0]

/-- A 6-vector state and a 6 by 6 covariance matrix. -/
abbrev State6 := Fin 6 → ℚ

/-- Covariance matrices, 6 by 6 (36 elements). -/
abbrev Cov6 := Fin 6 → Fin 6 → ℚ

/-- Mirrors `np.diag` on a list of six diagonal entries. -/
def diagQ (l : List ℚ) : Cov6 :=
  fun i j => if i = j then l.getD i 0 else 0

/-- Mirrors `RobotFilter.set_state(state, P=None)`: `self.x = state` is
assigned first; then `if P:` either evaluates the truthiness of the
(6, 6) covariance array (36 elements, hence `ValueError`) or, for
`P = None`, falls to the default branch, which evaluates
`defaultCovDiag` (hence `AttributeError` from the `_setings` typo).
Returns the new `(x, P)` pair on success. -/
def set_state (s : RobotFilterSettings) (state : State6) (P : Option Cov6) :
    Except PyError (State6 × Cov6) :=
  match P with
  | some Pm => do
    let b ← ndarrayTruthy (6 * 6) (decide (Pm 0 0 ≠ 0))
    if b then pure (state, Pm)
    else do
      let d ← defaultCovDiag s
      pure (state, diagQ d)
  | none => do
    let d ← defaultCovDiag s
    pure (state, diagQ d)

/-- The frame tags held in a cache map. -/
def vals (d : List (Int × Nat)) : List Nat :=
  d.map (fun e => e.2)

/-- The subscriber identities in a registry. -/
def cids (reg : List Channel) : List Nat :=
  reg.map (fun ch => ch.cid)

/-! ## Helper lemmas about the dict model -/

theorem keys_nil {α : Type} : keys ([] : List (Int × α)) = [] := rfl

theorem keys_cons {α : Type} (e : Int × α) (rest : List (Int × α)) :
    keys (e :: rest) = e.1 :: keys rest := rfl

theorem keys_append {α : Type} (d1 d2 : List (Int × α)) :
    keys (d1 ++ d2) = keys d1 ++ keys d2 := by
  simp [keys]

theorem entriesFor_nil {α : Type} (k : Int) : entriesFor ([] : List (Int × α)) k = [] := rfl

theorem entriesFor_cons {α : Type} (e : Int × α) (rest : List (Int × α)) (k : Int) :
    entriesFor (e :: rest) k =
      if e.1 = k then e :: entriesFor rest k else entriesFor rest k := by
  by_cases h : e.1 = k <;> simp [entriesFor, List.filter_cons, h]

theorem any_key_iff {α : Type} (d : List (Int × α)) (k : Int) :
    (d.any (fun e => decide (e.1 = k)) = true) ↔ k ∈ keys d := by
  induction d with
  | nil => simp [keys_nil]
  | cons e rest ih =>
    rw [List.any_cons, keys_cons, List.mem_cons]
    by_cases h : e.1 = k
    · simp [h]
    · simp only [Bool.or_eq_true, decide_eq_true_eq, h, false_or, ih]
      constructor
      · exact Or.inr
      · rintro (h1 | h2)
        · exact absurd h1.symm h
        · exact h2

theorem replaceKey_of_not_mem {α : Type} (d : List (Int × α)) (k : Int) (v : α)
    (h : k ∉ keys d) : replaceKey d k v = d := by
  induction d with
  | nil => rfl
  | cons e rest ih =>
    rw [keys_cons, List.mem_cons, not_or] at h
    have h1 : ¬ e.1 = k := fun hh => h.1 hh.symm
    simp only [replaceKey, List.map_cons, if_neg h1]
    have h2 := ih h.2
    simp only [replaceKey] at h2
    rw [h2]

theorem keys_replaceKey {α : Type} (d : List (Int × α)) (k : Int) (v : α) :
    keys (replaceKey d k v) = keys d := by
  induction d with
  | nil => rfl
  | cons e rest ih =>
    by_cases h : e.1 = k
    · simp only [replaceKey, List.map_cons, if_pos h, keys_cons]
      simp only [replaceKey] at ih
      rw [ih, h]
    · simp only [replaceKey, List.map_cons, if_neg h, keys_cons]
      simp only [replaceKey] at ih
      rw [ih]

theorem entriesFor_append {α : Type} (d1 d2 : List (Int × α)) (k : Int) :
    entriesFor (d1 ++ d2) k = entriesFor d1 k ++ entriesFor d2 k := by
  simp [entriesFor, List.filter_append]

theorem entriesFor_eq_nil_of_not_mem {α : Type} (d : List (Int × α)) (k : Int)
    (h : k ∉ keys d) : entriesFor d k = [] := by
  induction d with
  | nil => rfl
  | cons e rest ih =>
    rw [keys_cons, List.mem_cons, not_or] at h
    rw [entriesFor_cons, if_neg (fun hh => h.1 hh.symm)]
    exact ih h.2

theorem entriesFor_replaceKey_self {α : Type} (d : List (Int × α)) (k : Int) (v : α)
    (hnd : (keys d).Nodup) (hmem : k ∈ keys d) :
    entriesFor (replaceKey d k v) k = [(k, v)] := by
  induction d with
  | nil => simp [keys_nil] at hmem
  | cons e rest ih =>
    rw [keys_cons, List.nodup_cons] at hnd
    by_cases h : e.1 = k
    · have hrest : k ∉ keys rest := h ▸ hnd.1
      simp only [replaceKey, List.map_cons, if_pos h]
      have hr : replaceKey rest k v = rest := replaceKey_of_not_mem rest k v hrest
      simp only [replaceKey] at hr
      rw [hr, entriesFor_cons, if_pos rfl, entriesFor_eq_nil_of_not_mem rest k hrest]
    · have hmem' : k ∈ keys rest := by
        rw [keys_cons, List.mem_cons] at hmem
        rcases hmem with h1 | h2
        · exact absurd h1.symm h
        · exact h2
      simp only [replaceKey, List.map_cons, if_neg h]
      rw [entriesFor_cons, if_neg h]
      exact ih hnd.2 hmem'

theorem entriesFor_replaceKey_other {α : Type} (d : List (Int × α)) (k k' : Int) (v : α)
    (hne : k' ≠ k) : entriesFor (replaceKey d k v) k' = entriesFor d k' := by
  induction d with
  | nil => rfl
  | cons e rest ih =>
    simp only [replaceKey, List.map_cons] at ih ⊢
    by_cases h : e.1 = k
    · rw [if_pos h, entriesFor_cons, entriesFor_cons,
        if_neg (show ¬ (k, v).1 = k' from fun hh => hne hh.symm), if_neg (h ▸ fun hh => hne hh.symm)]
      exact ih
    · rw [if_neg h, entriesFor_cons, entriesFor_cons]
      by_cases h2 : e.1 = k'
      · rw [if_pos h2, if_pos h2]
        exact congrArg (e :: ·) ih
      · rw [if_neg h2, if_neg h2]
        exact ih

theorem keys_dictInsert_mem {α : Type} (d : List (Int × α)) (k : Int) (v : α)
    (h : k ∈ keys d) : keys (dictInsert d k v) = keys d := by
  simp only [dictInsert]
  rw [if_pos ((any_key_iff d k).2 h)]
  exact keys_replaceKey d k v

theorem keys_dictInsert_not_mem {α : Type} (d : List (Int × α)) (k : Int) (v : α)
    (h : k ∉ keys d) : keys (dictInsert d k v) = keys d ++ [k] := by
  simp only [dictInsert]
  rw [if_neg (fun hc => h ((any_key_iff d k).1 hc))]
  simp [keys]

theorem nodup_keys_dictInsert {α : Type} (d : List (Int × α)) (k : Int) (v : α)
    (h : (keys d).Nodup) : (keys (dictInsert d k v)).Nodup := by
  by_cases hm : k ∈ keys d
  · rw [keys_dictInsert_mem d k v hm]; exact h
  · rw [keys_dictInsert_not_mem d k v hm]
    simpa [List.nodup_append] using ⟨h, hm⟩

theorem entriesFor_dictInsert_self {α : Type} (d : List (Int × α)) (k : Int) (v : α)
    (h : (keys d).Nodup) : entriesFor (dictInsert d k v) k = [(k, v)] := by
  by_cases hm : k ∈ keys d
  · simp only [dictInsert]
    rw [if_pos ((any_key_iff d k).2 hm)]
    exact entriesFor_replaceKey_self d k v h hm
  · simp only [dictInsert]
    rw [if_neg (fun hc => hm ((any_key_iff d k).1 hc))]
    rw [entriesFor_append, entriesFor_eq_nil_of_not_mem d k hm]
    simp [entriesFor]

theorem entriesFor_dictInsert_other {α : Type} (d : List (Int × α)) (k k' : Int) (v : α)
    (hne : k' ≠ k) : entriesFor (dictInsert d k v) k' = entriesFor d k' := by
  simp only [dictInsert]
  by_cases hb : d.any (fun e => decide (e.1 = k)) = true
  · rw [if_pos hb]
    exact entriesFor_replaceKey_other d k k' v hne
  · rw [if_neg hb, entriesFor_append]
    simp [entriesFor, hne.symm, fun hh : k = k' => hne hh.symm]

theorem buildDict_concat {α : Type} (l : List (Int × α)) (e : Int × α) :
    buildDict (l ++ [e]) = dictInsert (buildDict l) e.1 e.2 := by
  simp [buildDict, List.foldl_append]

theorem nodup_keys_buildDict {α : Type} (l : List (Int × α)) :
    (keys (buildDict l)).Nodup := by
  induction l using List.reverseRecOn with
  | nil => simp [buildDict, keys]
  | append_singleton l e ih =>
    rw [buildDict_concat]
    exact nodup_keys_dictInsert _ _ _ ih

theorem mem_dictInsert {α : Type} (d : List (Int × α)) (k : Int) (v : α)
    (x : Int × α) (hx : x ∈ dictInsert d k v) : x = (k, v) ∨ x ∈ d := by
  simp only [dictInsert] at hx
  by_cases hb : d.any (fun e => decide (e.1 = k)) = true
  · rw [if_pos hb] at hx
    simp only [replaceKey, List.mem_map] at hx
    rcases hx with ⟨e, he, hex⟩
    by_cases h : e.1 = k
    · left; rw [← hex, if_pos h]
    · right; rw [← hex, if_neg h]; exact he
  · rw [if_neg hb] at hx
    rcases List.mem_append.1 hx with h | h
    · right; exact h
    · left; simpa using h

theorem mem_buildDict {α : Type} (l : List (Int × α)) (x : Int × α)
    (hx : x ∈ buildDict l) : x ∈ l := by
  induction l using List.reverseRecOn with
  | nil => simp [buildDict] at hx
  | append_singleton l e ih =>
    rw [buildDict_concat] at hx
    rcases mem_dictInsert _ _ _ _ hx with h | h
    · simp [h]
    · simp [ih h]

theorem entriesFor_buildDict {α : Type} (l : List (Int × α)) (k : Int) :
    entriesFor (buildDict l) k =
      match (l.filter (fun e => decide (e.1 = k))).getLast? with
      | some e => [(k, e.2)]
      | none => [] := by
  induction l using List.reverseRecOn with
  | nil => simp [buildDict, entriesFor]
  | append_singleton l e ih =>
    rw [buildDict_concat]
    by_cases h : e.1 = k
    · have hfilter : (l ++ [e]).filter (fun e' => decide (e'.1 = k)) =
          l.filter (fun e' => decide (e'.1 = k)) ++ [e] := by
        simp [List.filter_append, h]
      have hins : dictInsert (buildDict l) e.1 e.2 = dictInsert (buildDict l) k e.2 := by
        rw [h]
      rw [hfilter, List.getLast?_concat, hins,
        entriesFor_dictInsert_self _ _ _ (nodup_keys_buildDict l)]
    · have hfilter : (l ++ [e]).filter (fun e' => decide (e'.1 = k)) =
          l.filter (fun e' => decide (e'.1 = k)) := by
        simp [List.filter_append, h]
      rw [entriesFor_dictInsert_other _ _ _ _ (fun hh => h hh.symm), hfilter]
      exact ih

theorem mem_of_getLast?_eq {α : Type} {l : List α} {a : α} (h : l.getLast? = some a) :
    a ∈ l := by
  have ha : a ∈ l.getLast? := by rw [h]; rfl
  rcases List.mem_getLast?_eq_getLast ha with ⟨hne, heq⟩
  rw [heq]
  exact List.getLast_mem hne

/-! ## Wire encoding lemmas -/

theorem truncQ_le (q : ℚ) (h : q ≤ 127) : truncQ q ≤ 127 := by
  unfold truncQ
  by_cases h0 : 0 ≤ q
  · rw [if_pos h0]
    have := (Int.floor_le q).trans h
    exact_mod_cast this
  · rw [if_neg h0]
    have hq : q ≤ 0 := (lt_of_not_le h0).le
    have : ⌈q⌉ ≤ (0 : Int) := Int.ceil_le.2 (by exact_mod_cast hq)
    omega

theorem truncQ_ge (q : ℚ) (h : -127 ≤ q) : -127 ≤ truncQ q := by
  unfold truncQ
  by_cases h0 : 0 ≤ q
  · rw [if_pos h0]
    have : (0 : Int) ≤ ⌊q⌋ := Int.floor_nonneg.2 h0
    omega
  · rw [if_neg h0]
    have := h.trans (Int.le_ceil q)
    exact_mod_cast this

theorem int8OfInt_eq_self (n : Int) (h1 : -128 ≤ n) (h2 : n ≤ 127) : int8OfInt n = n := by
  unfold int8OfInt
  omega

theorem clip_mem (q : ℚ) : -127 ≤ clip q (-127) 127 ∧ clip q (-127) 127 ≤ 127 := by
  unfold clip
  constructor
  · exact le_max_left _ _
  · exact max_le (by norm_num) (min_le_right _ _)

/-- Claim C10: the wire encoding of one wheel-velocity component is
`127 * w` clamped to `[-127, 127]` and then truncated toward zero; the
`int8` reinterpretation never wraps because clamping happens first;
`0.015` encodes to `1`, `-0.015` to `-1`, and any `w ≥ 1` to exactly
`127`. -/
theorem wire_encoding_clamp_then_truncate :
    (∀ w : ℚ, encodeWheel w = truncQ (clip (127 * w) (-127) 127)) ∧
    encodeWheel (15 / 1000) = 1 ∧
    encodeWheel (-(15 / 1000)) = -1 ∧
    (∀ w : ℚ, 1 ≤ w → encodeWheel w = 127) := by
  have hmain : ∀ w : ℚ, encodeWheel w = truncQ (clip (127 * w) (-127) 127) := by
    intro w
    unfold encodeWheel
    rcases clip_mem (127 * w) with ⟨hlo, hhi⟩
    exact int8OfInt_eq_self _ (by linarith [truncQ_ge _ hlo]) (truncQ_le _ hhi)
  refine ⟨hmain, ?_, ?_, ?_⟩
  · norm_num [encodeWheel, clip, truncQ, int8OfInt, min_def, max_def]
  · norm_num [encodeWheel, clip, truncQ, int8OfInt, min_def, max_def, Int.ceil_neg]
  · intro w hw
    have h127 : (127 : ℚ) ≤ 127 * w := by linarith
    have hclip : clip (127 * w) (-127) 127 = 127 := by
      unfold clip
      rw [min_eq_right (by linarith), max_eq_right (by norm_num)]
    rw [hmain, hclip]
    norm_num [truncQ, int8OfInt]

/-- Witness for C10: the hypothesis `1 ≤ w` holds at `w = 2`, where the
encoding saturates at `127`. -/
theorem wire_encoding_clamp_then_truncate_witness :
    encodeWheel 2 = 127 :=
  wire_encoding_clamp_then_truncate.2.2.2 2 (by norm_num)

/-! ## Command buffer: last-write-wins -/

theorem applyCalls_eq_buildDict (calls : List RawMovementAction) :
    applyCalls calls = buildDict (calls.map (fun a => (a.robot_id, a))) := by
  simp only [applyCalls, buildDict, List.foldl_map]
  rfl

theorem generateActions_eq_buildDict (buf : Buffer) :
    generateActions buf =
      buildDict (buf.map (fun e => (e.2.robot_id, encodeWheels e.2.wheel_velocities))) := by
  simp only [generateActions, buildDict, List.foldl_map]

theorem buildDict_calls_key_inv (calls : List RawMovementAction) :
    ∀ e ∈ buildDict (calls.map (fun a => (a.robot_id, a))), e.2.robot_id = e.1 := by
  intro e he
  have := mem_buildDict _ _ he
  rcases List.mem_map.1 this with ⟨a, _, hae⟩
  rw [← hae]

/-- Claim C1: for every sequence of `set_action` calls before a tick and
every robot id `r`, the encoded buffer snapshot sent on that tick has
exactly one entry for `r`, equal to the encoding of the last `set_action`
call with that robot id, and no entry for robot ids never set. -/
theorem last_write_wins_snapshot (calls : List RawMovementAction) (r : Int) :
    entriesFor (generateActions (applyCalls calls)) r =
      match (calls.filter (fun a => decide (a.robot_id = r))).getLast? with
      | some a => [(r, encodeWheels a.wheel_velocities)]
      | none => [] := by
  rw [generateActions_eq_buildDict, applyCalls_eq_buildDict, entriesFor_buildDict]
  have hstep1 :
      ((buildDict (calls.map (fun a => (a.robot_id, a)))).map
          (fun e => (e.2.robot_id, encodeWheels e.2.wheel_velocities))).filter
        (fun e => decide (e.1 = r)) =
      ((buildDict (calls.map (fun a => (a.robot_id, a)))).filter
          (fun e => decide (e.1 = r))).map
        (fun e => (e.2.robot_id, encodeWheels e.2.wheel_velocities)) := by
    rw [List.filter_map]
    congr 1
    apply List.filter_congr
    intro e he
    simp only [Function.comp]
    exact congrArg (fun x => decide (x = r)) (buildDict_calls_key_inv calls e he)
  rw [hstep1]
  have hstep2 :
      (buildDict (calls.map (fun a => (a.robot_id, a)))).filter (fun e => decide (e.1 = r)) =
        entriesFor (buildDict (calls.map (fun a => (a.robot_id, a)))) r := rfl
  rw [hstep2, entriesFor_buildDict]
  have hstep3 :
      (calls.map (fun a => (a.robot_id, a))).filter (fun e => decide (e.1 = r)) =
        (calls.filter (fun a => decide (a.robot_id = r))).map (fun a => (a.robot_id, a)) := by
    rw [List.filter_map]
    rfl
  rw [hstep3]
  simp only [List.getLast?_map]
  cases hlast : (calls.filter (fun a => decide (a.robot_id = r))).getLast? with
  | none => simp
  | some a =>
    have hmem : a ∈ calls.filter (fun a => decide (a.robot_id = r)) := mem_of_getLast?_eq hlast
    have har : a.robot_id = r := by
      have := (List.mem_filter.1 hmem).2
      simpa using this
    simp [har]

/-! ## set_action performs no validation (C6) -/

/-- Counterexample to claim C6: `set_action` with the negative robot id
`-1` does not raise and does not leave the buffer unchanged; the entry is
stored under key `-1`. -/
theorem set_action_negative_id_counterexample :
    set_action [] ⟨-1, [0, 0, 0, 0]⟩ = [(-1, ⟨-1, [0, 0, 0, 0]⟩)] ∧
    set_action [] ⟨-1, [0, 0, 0, 0]⟩ ≠ [] := by
  constructor
  · rfl
  · simp [set_action, dictInsert, replaceKey]

/-- Claim C6 as amended: `set_action` performs no validation at all; for
every robot id — negative ones included — the call succeeds, stores the
action under that id (last-write-wins) and leaves all other entries
unchanged; wheel velocities are not range-checked. -/
theorem set_action_no_validation (buf : Buffer) (a : RawMovementAction)
    (h : (keys buf).Nodup) :
    entriesFor (set_action buf a) a.robot_id = [(a.robot_id, a)] ∧
    ∀ r : Int, r ≠ a.robot_id → entriesFor (set_action buf a) r = entriesFor buf r :=
  ⟨entriesFor_dictInsert_self buf a.robot_id a h,
    fun r hr => entriesFor_dictInsert_other buf a.robot_id r a hr⟩

/-- Witness for C6's amended theorem at a concrete negative robot id. -/
theorem set_action_no_validation_witness :
    entriesFor (set_action [] ⟨-5, [1, 0, 0, 0]⟩) (-5) = [(-5, ⟨-5, [1, 0, 0, 0]⟩)] :=
  (set_action_no_validation [] ⟨-5, [1, 0, 0, 0]⟩ (by simp [keys_nil])).1

/-! ## Observation cache lemmas -/

theorem stateAfterFrom_cons (s : List (Int × Nat)) (op : CacheOp) (ops : List CacheOp) :
    stateAfterFrom s (op :: ops) =
      stateAfterFrom (match op with
        | .update c t => dictInsert s c t
        | .read => []) ops := by
  cases op <;> simp [stateAfterFrom]

theorem stateAfterFrom_buildDict (ops : List CacheOp) :
    ∀ acc : List (Int × Nat),
      stateAfterFrom (buildDict acc) ops =
        buildDict (ops.foldl (fun acc op =>
          match op with
          | .update c t => acc ++ [(c, t)]
          | .read => []) acc) := by
  induction ops with
  | nil => intro acc; rfl
  | cons op rest ih =>
    intro acc
    cases op with
    | update c t =>
      have h1 : stateAfterFrom (buildDict acc) (CacheOp.update c t :: rest) =
          stateAfterFrom (dictInsert (buildDict acc) c t) rest := rfl
      have h2 : dictInsert (buildDict acc) c t = buildDict (acc ++ [(c, t)]) :=
        (buildDict_concat acc (c, t)).symm
      rw [h1, h2, ih (acc ++ [(c, t)])]
      rfl
    | read =>
      have h1 : stateAfterFrom (buildDict acc) (CacheOp.read :: rest) =
          stateAfterFrom (buildDict []) rest := rfl
      rw [h1, ih []]
      rfl

theorem stateAfter_eq_buildDict (ops : List CacheOp) :
    stateAfter ops = buildDict (updatesSinceLastRead ops) := by
  have := stateAfterFrom_buildDict ops []
  simpa [stateAfter, updatesSinceLastRead, buildDict] using this

theorem readsFrom_append_read (ops : List CacheOp) :
    ∀ s : List (Int × Nat),
      readsFrom s (ops ++ [CacheOp.read]) = readsFrom s ops ++ [stateAfterFrom s ops] := by
  induction ops with
  | nil =>
    intro s
    simp [readsFrom, stateAfterFrom]
  | cons op rest ih =>
    intro s
    cases op with
    | update c t =>
      have h1 : readsFrom s ((CacheOp.update c t :: rest) ++ [CacheOp.read]) =
          readsFrom (dictInsert s c t) (rest ++ [CacheOp.read]) := rfl
      rw [h1, ih (dictInsert s c t)]
      rfl
    | read =>
      have h1 : readsFrom s ((CacheOp.read :: rest) ++ [CacheOp.read]) =
          s :: readsFrom [] (rest ++ [CacheOp.read]) := rfl
      rw [h1, ih []]
      rfl

theorem updateTags_cons_update (c : Int) (t : Nat) (rest : List CacheOp) :
    updateTags (CacheOp.update c t :: rest) = t :: updateTags rest := by
  simp [updateTags, List.filterMap_cons]

theorem updateTags_cons_read (rest : List CacheOp) :
    updateTags (CacheOp.read :: rest) = updateTags rest := by
  simp [updateTags, List.filterMap_cons]

theorem vals_mem_replaceKey (s : List (Int × Nat)) (c : Int) (t x : Nat)
    (hx : x ∈ vals (replaceKey s c t)) : x = t ∨ x ∈ vals s := by
  simp only [vals, replaceKey, List.map_map, List.mem_map] at hx
  rcases hx with ⟨e, he, hex⟩
  by_cases h : e.1 = c
  · left
    simp only [Function.comp, if_pos h] at hex
    exact hex.symm
  · right
    simp only [Function.comp, if_neg h] at hex
    exact hex ▸ List.mem_map.2 ⟨e, he, rfl⟩

theorem vals_mem_dictInsert (s : List (Int × Nat)) (c : Int) (t x : Nat)
    (hx : x ∈ vals (dictInsert s c t)) : x = t ∨ x ∈ vals s := by
  simp only [vals, List.mem_map] at hx
  rcases hx with ⟨e, he, hex⟩
  rcases mem_dictInsert s c t e he with h | h
  · left; rw [← hex, h]
  · right; exact hex ▸ List.mem_map.2 ⟨e, h, rfl⟩

theorem vals_replaceKey_nodup (s : List (Int × Nat)) (c : Int) (t : Nat)
    (hk : (keys s).Nodup) (hv : (vals s).Nodup) (ht : t ∉ vals s) :
    (vals (replaceKey s c t)).Nodup := by
  induction s with
  | nil => simp [vals, replaceKey]
  | cons e rest ih =>
    rw [keys_cons, List.nodup_cons] at hk
    simp only [vals, List.map_cons, List.nodup_cons] at hv
    simp only [vals, List.map_cons, List.mem_cons, not_or] at ht
    by_cases h : e.1 = c
    · have hrest : c ∉ keys rest := h ▸ hk.1
      have hrep : replaceKey rest c t = rest := replaceKey_of_not_mem rest c t hrest
      simp only [replaceKey, List.map_cons, if_pos h]
      simp only [replaceKey] at hrep
      rw [hrep]
      simp only [vals, List.map_cons, List.nodup_cons]
      exact ⟨ht.2, hv.2⟩
    · simp only [replaceKey, List.map_cons, if_neg h]
      simp only [vals, List.map_cons, List.nodup_cons]
      constructor
      · intro hmem
        have hmem2 : e.2 ∈ vals (replaceKey rest c t) := by
          simpa [vals, replaceKey] using hmem
        rcases vals_mem_replaceKey rest c t e.2 hmem2 with h1 | h1
        · exact ht.1 h1.symm
        · exact hv.1 h1
      · have := ih hk.2 hv.2 ht.2
        simpa [vals, replaceKey] using this

theorem vals_dictInsert_nodup (s : List (Int × Nat)) (c : Int) (t : Nat)
    (hk : (keys s).Nodup) (hv : (vals s).Nodup) (ht : t ∉ vals s) :
    (vals (dictInsert s c t)).Nodup := by
  unfold dictInsert
  by_cases hb : s.any (fun e => decide (e.1 = c)) = true
  · rw [if_pos hb]
    exact vals_replaceKey_nodup s c t hk hv ht
  · rw [if_neg hb]
    have hv2 : vals (s ++ [(c, t)]) = vals s ++ [t] := by simp [vals]
    rw [hv2, List.nodup_append]
    refine ⟨hv, List.nodup_singleton t, ?_⟩
    intro x hx hxt
    rw [List.mem_singleton] at hxt
    exact ht (hxt ▸ hx)

theorem reads_join_tags_sub (ops : List CacheOp) :
    ∀ (s : List (Int × Nat)) (x : Nat),
      x ∈ (readsFrom s ops).flatten.map (fun e => e.2) → x ∈ vals s ∨ x ∈ updateTags ops := by
  induction ops with
  | nil => intro s x hx; simp [readsFrom] at hx
  | cons op rest ih =>
    intro s x hx
    cases op with
    | update c t =>
      rw [updateTags_cons_update]
      simp only [readsFrom] at hx
      rcases ih (dictInsert s c t) x hx with h | h
      · rcases vals_mem_dictInsert s c t x h with h1 | h1
        · right; exact h1 ▸ List.mem_cons_self _ _
        · left; exact h1
      · right; exact List.mem_cons_of_mem _ h
    | read =>
      rw [updateTags_cons_read]
      simp only [readsFrom, List.flatten_cons, List.map_append, List.mem_append] at hx
      rcases hx with h | h
      · left; simpa [vals] using h
      · rcases ih [] x h with h1 | h1
        · simp [vals] at h1
        · right; exact h1

theorem reads_join_tags_nodup (ops : List CacheOp) :
    ∀ s : List (Int × Nat), (keys s).Nodup →
      (vals s ++ updateTags ops).Nodup →
      ((readsFrom s ops).flatten.map (fun e => e.2)).Nodup := by
  induction ops with
  | nil => intro s _ _; simp [readsFrom]
  | cons op rest ih =>
    intro s hk h
    cases op with
    | update c t =>
      rw [updateTags_cons_update] at h
      rw [List.nodup_append] at h
      obtain ⟨hvs, htrest, hdisj⟩ := h
      rw [List.nodup_cons] at htrest
      have htvs : t ∉ vals s := fun hmem => hdisj hmem (List.mem_cons_self _ _)
      simp only [readsFrom]
      apply ih (dictInsert s c t) (nodup_keys_dictInsert s c t hk)
      rw [List.nodup_append]
      refine ⟨vals_dictInsert_nodup s c t hk hvs htvs, htrest.2, ?_⟩
      intro x hx hx2
      rcases vals_mem_dictInsert s c t x hx with h1 | h1
      · exact htrest.1 (h1 ▸ hx2)
      · exact hdisj h1 (List.mem_cons_of_mem _ hx2)
    | read =>
      rw [updateTags_cons_read] at h
      rw [List.nodup_append] at h
      obtain ⟨hvs, hrest, hdisj⟩ := h
      simp only [readsFrom, List.flatten_cons, List.map_append]
      rw [List.nodup_append]
      refine ⟨by simpa [vals] using hvs, ih [] (by simp [keys_nil]) (by simpa [vals] using hrest), ?_⟩
      intro x hx hx2
      rcases reads_join_tags_sub rest [] x hx2 with h1 | h1
      · simp [vals] at h1
      · exact hdisj (show x ∈ vals s from hx) h1

/-- Claim C2: a clone-and-clear read returns, per camera, exactly the most
recent frame received since the previous read (at most one entry per
camera); a second read with no intervening update returns the empty map;
and, when all received frames are distinct, no frame is ever returned by
two different reads (the tag lists of all reads, joined, have no
duplicate). -/
theorem clone_and_clear_exactly_once :
    (∀ (ops : List CacheOp) (c : Int),
      entriesFor (stateAfter ops) c =
        match ((updatesSinceLastRead ops).filter (fun e => decide (e.1 = c))).getLast? with
        | some e => [(c, e.2)]
        | none => []) ∧
    (∀ ops : List CacheOp,
      cacheReads (ops ++ [CacheOp.read, CacheOp.read]) =
        cacheReads ops ++ [stateAfter ops, []]) ∧
    (∀ ops : List CacheOp, (updateTags ops).Nodup →
      ((cacheReads ops).flatten.map (fun e => e.2)).Nodup) := by
  refine ⟨?_, ?_, ?_⟩
  · intro ops c
    rw [stateAfter_eq_buildDict, entriesFor_buildDict]
    cases ((updatesSinceLastRead ops).filter (fun e => decide (e.1 = c))).getLast? <;> rfl
  · intro ops
    have h2 : ops ++ [CacheOp.read, CacheOp.read] = (ops ++ [CacheOp.read]) ++ [CacheOp.read] := by
      simp
    rw [cacheReads, h2, readsFrom_append_read, readsFrom_append_read]
    have h3 : stateAfterFrom [] (ops ++ [CacheOp.read]) = [] := by
      simp [stateAfterFrom, List.foldl_append]
    rw [h3]
    simp [cacheReads, stateAfter, List.append_assoc]
  · intro ops h
    exact reads_join_tags_nodup ops [] (by simp [keys_nil]) (by simpa [vals] using h)

/-- Witness for C2 at a concrete operation sequence with distinct frame
tags: two writes to camera 1, a read, a write to camera 2, a read. -/
theorem clone_and_clear_exactly_once_witness :
    ((cacheReads [CacheOp.update 1 10, CacheOp.update 1 11, CacheOp.read,
        CacheOp.update 2 20, CacheOp.read]).flatten.map (fun e => e.2)).Nodup :=
  clone_and_clear_exactly_once.2.2
    [CacheOp.update 1 10, CacheOp.update 1 11, CacheOp.read,
        CacheOp.update 2 20, CacheOp.read]
    (by decide)

theorem updatesAcc_all_updates (c : Int) (tags : List Nat) :
    ∀ acc : List (Int × Nat),
      ((tags.map (CacheOp.update c)).foldl (fun acc op =>
        match op with
        | CacheOp.update c t => acc ++ [(c, t)]
        | CacheOp.read => []) acc) = acc ++ tags.map (fun t => (c, t)) := by
  induction tags with
  | nil => intro acc; simp
  | cons t rest ih =>
    intro acc
    simp only [List.map_cons, List.foldl_cons]
    rw [ih (acc ++ [(c, t)])]
    simp

theorem buildDict_const_key (c : Int) (tags : List Nat) (h : tags ≠ []) :
    buildDict (tags.map (fun t => (c, t))) = [(c, tags.getLast h)] := by
  induction tags using List.reverseRecOn with
  | nil => exact absurd rfl h
  | append_singleton ts t ih =>
    rw [List.map_append, List.map_singleton, buildDict_concat]
    by_cases hts : ts = []
    · subst hts
      simp [buildDict, dictInsert, replaceKey, List.getLast_singleton]
    · rw [ih hts]
      have hstep : dictInsert [(c, ts.getLast hts)] (c, t).1 (c, t).2 = [(c, t)] := by
        simp [dictInsert, replaceKey]
      rw [hstep]
      have hlast : (ts ++ [t]).getLast h = t := List.getLast_append_singleton ts
      rw [hlast]

theorem readsFrom_all_updates (c : Int) (tags : List Nat) :
    ∀ s : List (Int × Nat), readsFrom s (tags.map (CacheOp.update c)) = [] := by
  induction tags with
  | nil => intro s; rfl
  | cons t rest ih =>
    intro s
    simp only [List.map_cons, readsFrom]
    exact ih _

/-- Claim C3: publishing N detection frames for the same camera before any
read leaves exactly one slot for that camera, holding the last frame, and
that frame is what the next clone-and-clear read returns. -/
theorem overwrite_not_accumulate (c : Int) (tags : List Nat) (h : tags ≠ []) :
    stateAfter (tags.map (CacheOp.update c)) = [(c, tags.getLast h)] ∧
    cacheReads (tags.map (CacheOp.update c) ++ [CacheOp.read]) = [[(c, tags.getLast h)]] := by
  have hstate : stateAfter (tags.map (CacheOp.update c)) = [(c, tags.getLast h)] := by
    rw [stateAfter_eq_buildDict]
    have hupd : updatesSinceLastRead (tags.map (CacheOp.update c)) = tags.map (fun t => (c, t)) := by
      have := updatesAcc_all_updates c tags []
      simpa [updatesSinceLastRead] using this
    rw [hupd, buildDict_const_key c tags h]
  refine ⟨hstate, ?_⟩
  rw [cacheReads, readsFrom_append_read, readsFrom_all_updates]
  rw [show stateAfterFrom [] (tags.map (CacheOp.update c)) = stateAfter (tags.map (CacheOp.update c)) from rfl,
    hstate]
  rfl

/-- Witness for C3: three frames for camera 7 leave only the third. -/
theorem overwrite_not_accumulate_witness :
    stateAfter ([1, 2, 3].map (CacheOp.update 7)) = [(7, [1, 2, 3].getLast (by decide))] :=
  (overwrite_not_accumulate 7 [1, 2, 3] (by decide)).1

/-! ## Channel fan-out lemmas -/

theorem publishDetection_keep (reg : List Channel) (f : Int × Nat) :
    (publishDetection reg f).1 =
      (reg.filter (fun ch => !ch.broken)).map
        (fun ch => { ch with queue := ch.queue ++ [f] }) := by
  induction reg with
  | nil => rfl
  | cons ch rest ih =>
    simp only [publishDetection] at ih ⊢
    cases hb : ch.broken
    · have hsend : channelSend ch f = SendResult.ok { ch with queue := ch.queue ++ [f] } := by
        simp [channelSend, hb]
      simp [List.filterMap_cons, List.filter_cons, hsend, hb, ih]
    · have hsend : channelSend ch f = SendResult.brokenResource := by
        simp [channelSend, hb]
      simp [List.filterMap_cons, List.filter_cons, hsend, hb, ih]

theorem cid_unique (reg : List Channel) (hnd : (cids reg).Nodup) :
    ∀ ch ∈ reg, ∀ ch2 ∈ reg, ch.cid = ch2.cid → ch = ch2 := by
  induction reg with
  | nil => intro ch h; simp at h
  | cons c0 rest ih =>
    simp only [cids, List.map_cons, List.nodup_cons] at hnd
    intro ch hch ch2 hch2 hcid
    rcases List.mem_cons.1 hch with h1 | h1 <;> rcases List.mem_cons.1 hch2 with h2 | h2
    · rw [h1, h2]
    · exact absurd (List.mem_map.2 ⟨ch2, h2, (h1 ▸ hcid).symm⟩) hnd.1
    · exact absurd (List.mem_map.2 ⟨ch, h1, (h2 ▸ hcid)⟩) hnd.1
    · exact ih hnd.2 ch h1 ch2 h2 hcid

theorem cids_publish_sub (reg : List Channel) (f : Int × Nat) (ch2 : Channel)
    (h : ch2 ∈ (publishDetection reg f).1) : ch2.cid ∈ cids reg := by
  rw [publishDetection_keep] at h
  rcases List.mem_map.1 h with ⟨ch, hch, hmap⟩
  have : ch2.cid = ch.cid := by rw [← hmap]
  rw [this]
  exact List.mem_map.2 ⟨ch, (List.mem_filter.1 hch).1, rfl⟩

theorem cids_publishRounds_sub (fs : List (Int × Nat)) :
    ∀ (reg : List Channel) (ch2 : Channel), ch2 ∈ publishRounds reg fs → ch2.cid ∈ cids reg := by
  induction fs with
  | nil => intro reg ch2 h; exact List.mem_map.2 ⟨ch2, h, rfl⟩
  | cons f rest ih =>
    intro reg ch2 h
    have hstep : publishRounds reg (f :: rest) = publishRounds (publishDetection reg f).1 rest := rfl
    rw [hstep] at h
    have h2 := ih (publishDetection reg f).1 ch2 h
    rcases List.mem_map.1 h2 with ⟨ch3, hch3, hc3⟩
    rw [← hc3]
    exact cids_publish_sub reg f ch3 hch3

/-- Claim C5: in a delivery round, send is attempted on every registered
channel and each outcome depends only on that channel; the round keeps
exactly the non-broken channels, in order, each having received the
frame; and a channel whose send failed as broken never appears again in
any later round (never re-added). -/
theorem failed_subscriber_removal (reg : List Channel) (f : Int × Nat)
    (fs : List (Int × Nat)) (hnd : (cids reg).Nodup) :
    (publishDetection reg f).2 = reg.map (fun ch => channelSend ch f) ∧
    (publishDetection reg f).1 =
      (reg.filter (fun ch => !ch.broken)).map
        (fun ch => { ch with queue := ch.queue ++ [f] }) ∧
    (∀ ch ∈ reg, ch.broken = true →
      ∀ ch2 ∈ publishRounds reg (f :: fs), ch2.cid ≠ ch.cid) := by
  refine ⟨rfl, publishDetection_keep reg f, ?_⟩
  intro ch hch hbroken ch2 hch2 hcid
  have hstep : publishRounds reg (f :: fs) = publishRounds (publishDetection reg f).1 fs := rfl
  rw [hstep] at hch2
  have hcid2 : ch2.cid ∈ cids (publishDetection reg f).1 :=
    cids_publishRounds_sub fs (publishDetection reg f).1 ch2 hch2
  rcases List.mem_map.1 hcid2 with ⟨ch3, hch3, hc3⟩
  rw [publishDetection_keep] at hch3
  rcases List.mem_map.1 hch3 with ⟨ch4, hch4, hc4⟩
  have hch4f := List.mem_filter.1 hch4
  have hcid4 : ch4.cid = ch.cid := by
    have : ch3.cid = ch4.cid := by rw [← hc4]
    rw [← this, hc3, hcid]
  have : ch4 = ch := cid_unique reg hnd ch4 hch4f.1 ch hch hcid4
  rw [this] at hch4f
  rw [hbroken] at hch4f
  simp at hch4f

/-- Witness for C5: a live channel (id 0) and a broken channel (id 1);
after one round only channel 0 remains, holding the frame. -/
theorem failed_subscriber_removal_witness :
    (publishDetection [⟨0, false, []⟩, ⟨1, true, []⟩] (1, 10)).1 =
      [⟨0, false, [(1, 10)]⟩] := by
  have h := failed_subscriber_removal [⟨0, false, []⟩, ⟨1, true, []⟩] (1, 10) [] (by decide)
  rw [h.2.1]
  rfl

/-! ## Receive loops: decode failure behaviour (C4) -/

/-- Claim C4 (code divergence): the threaded observation loop catches a
decode failure and continues, so both well-formed frames around a
malformed datagram reach the cache; but `SSLVisionClient.recv_message`
has no handler, so the same input terminates its `run` loop after the
first frame, never delivering the second: the registry still holds only
the first frame at the moment of the crash. -/
theorem decode_failure_loop_divergence :
    threadedVisionRun
        [Datagram.detection 1 10, Datagram.malformed, Datagram.detection 2 20] =
      [(1, 10), (2, 20)] ∧
    sslClientRun [⟨0, false, []⟩]
        [Datagram.detection 1 10, Datagram.malformed, Datagram.detection 2 20] =
      Except.error [⟨0, false, [(1, 10)]⟩] :=
  ⟨rfl, rfl⟩

/-! ## Ball filter: friction control input (C7) -/

/-- Claim C7 (code divergence): with the default deadzone and friction
deceleration and a positive velocity of 1000 mm/s, the control input the
code computes is `+686.4655` — the same sign as the velocity, so one
predict step at `dt = 1/100` makes the speed grow — whereas the claimed
value `sign(deadzone(v)) * (-friction_decel)` is `-686.4655`. The claim's
deadzone clause does hold: a velocity inside the deadzone gives control
input exactly 0. -/
theorem ball_friction_control_input :
    frictionInput 1000 defaultFrictionDeadzone defaultFrictionDecel = 6864655 / 10000 ∧
    qsign (apply_deadzone 1000 defaultFrictionDeadzone) * (-defaultFrictionDecel) =
      -(6864655 / 10000) ∧
    (1000 : ℚ) < ballPredictVel 1000 (1 / 100) defaultFrictionDeadzone defaultFrictionDecel ∧
    frictionInput (1 / 10000000) defaultFrictionDeadzone defaultFrictionDecel = 0 := by
  have hdz : apply_deadzone 1000 defaultFrictionDeadzone = 1000 := by
    rw [apply_deadzone, if_neg]
    rw [defaultFrictionDeadzone]
    norm_num [abs]
  have hdz0 : apply_deadzone (1 / 10000000) defaultFrictionDeadzone = 0 := by
    rw [apply_deadzone, if_pos]
    rw [defaultFrictionDeadzone]
    norm_num [abs]
  have hsgn : qsign (1000 : ℚ) = 1 := by
    rw [qsign, if_pos (by norm_num : (0 : ℚ) < 1000)]
  refine ⟨?_, ?_, ?_, ?_⟩
  · rw [frictionInput, hdz, hsgn, defaultFrictionDecel]
    norm_num
  · rw [hdz, hsgn, defaultFrictionDecel]
    norm_num
  · rw [ballPredictVel, frictionInput, hdz, hsgn, defaultFrictionDecel]
    norm_num
  · rw [frictionInput, hdz0, qsign]
    norm_num

/-! ## Robot filter set_state always raises (C9) -/

/-- Claim C9 (code divergence): `set_state` can never succeed. With no
explicit covariance the default branch evaluates the misspelt attribute
`self._setings` and raises `AttributeError`; with an explicit (6, 6)
covariance array, `if P:` evaluates the truth value of a 36-element
ndarray and raises `ValueError`. In neither case is any covariance
installed. -/
theorem set_state_always_raises (s : RobotFilterSettings) (state : State6) :
    set_state s state none = Except.error PyError.attributeError ∧
    ∀ Pm : Cov6, set_state s state (some Pm) = Except.error PyError.valueError := by
  constructor
  · rfl
  · intro Pm
    rfl

/-! ## Robot filter angle-aware aggregation (C8) -/

theorem atan2_zero_neg (x : ℝ) (hx : x < 0) : atan2 0 x = Real.pi := by
  rw [atan2, if_neg (not_lt.2 hx.le), if_pos hx, if_pos le_rfl, zero_div,
    Real.arctan_zero, zero_add]

theorem atan2_div_div (y x n : ℝ) (hn : 0 < n) :
    atan2 (y / n) (x / n) = atan2 y x := by
  have hdiv : (y / n) / (x / n) = y / x := by
    rcases eq_or_ne x 0 with hx | hx
    · simp [hx]
    · field_simp
  rw [atan2, atan2, hdiv]
  simp only [lt_div_iff₀ hn, div_lt_iff₀ hn, le_div_iff₀ hn, zero_mul]

theorem xMeanFn_angle (sigmas : List (Fin 6 → ℝ)) (Wm : List ℝ) (h : sigmas ≠ []) :
    xMeanFn sigmas Wm 2 =
      atan2 (((sigmas.zip Wm).map (fun p => Real.sin (p.1 2) * p.2)).sum)
            (((sigmas.zip Wm).map (fun p => Real.cos (p.1 2) * p.2)).sum) := by
  have hn : (0 : ℝ) < sigmas.length := by
    have := List.length_pos.2 h
    exact_mod_cast this
  simp only [xMeanFn, if_pos rfl]
  exact atan2_div_div _ _ _ hn

theorem angle_mod_358 : angle_mod (179 * Real.pi / 90) = -(Real.pi / 90) := by
  have hdiv1 : (179 * Real.pi / 90 + Real.pi) / (2 * Real.pi) = 269 / 180 := by
    field_simp [Real.pi_ne_zero]
    ring
  have htr1 : truncR ((179 * Real.pi / 90 + Real.pi) / (2 * Real.pi)) = 1 := by
    rw [hdiv1, truncR, if_pos (by norm_num)]
    norm_num
  have hfm1 : fmodR (179 * Real.pi / 90 + Real.pi) (2 * Real.pi) = 89 * Real.pi / 90 := by
    rw [fmodR, htr1]
    push_cast
    ring
  rw [angle_mod, hfm1]
  have hdiv2 : (2 * Real.pi + 89 * Real.pi / 90) / (2 * Real.pi) = 269 / 180 := by
    field_simp [Real.pi_ne_zero]
    ring
  have htr2 : truncR ((2 * Real.pi + 89 * Real.pi / 90) / (2 * Real.pi)) = 1 := by
    rw [hdiv2, truncR, if_pos (by norm_num)]
    norm_num
  rw [fmodR, htr2]
  push_cast
  ring

theorem cos_179deg_neg : Real.cos (179 * Real.pi / 180) < 0 := by
  have hπ := Real.pi_pos
  apply Real.cos_neg_of_pi_div_two_lt_of_lt
  · nlinarith
  · nlinarith

/-- Claim C8: the residual functions wrap the angle component to
`[-pi, pi)` instead of plain subtraction, the mean functions compute the
angle component as the `atan2` of the averaged weighted `(sin, cos)`
pairs (equivalently of their sums, since positive scaling does not change
`atan2`); consequently, for angles of 179 and -179 degrees the computed
mean is pi (180 degrees, not 0) and the residual is `-pi/90`
(2 degrees in magnitude, not 358). -/
theorem robot_filter_angle_aware :
    (∀ a b : Fin 6 → ℝ, residualX a b 2 = angle_mod (a 2 - b 2)) ∧
    (∀ a b : Fin 3 → ℝ, residualZ a b 2 = angle_mod (a 2 - b 2)) ∧
    (∀ (sigmas : List (Fin 6 → ℝ)) (Wm : List ℝ), sigmas ≠ [] →
      xMeanFn sigmas Wm 2 =
        atan2 (((sigmas.zip Wm).map (fun p => Real.sin (p.1 2) * p.2)).sum)
              (((sigmas.zip Wm).map (fun p => Real.cos (p.1 2) * p.2)).sum)) ∧
    zMeanFn [fun i => if i = 2 then 179 * Real.pi / 180 else 0,
             fun i => if i = 2 then -(179 * Real.pi / 180) else 0]
            [1 / 2, 1 / 2] 2 = Real.pi ∧
    residualZ (fun i => if i = 2 then 179 * Real.pi / 180 else 0)
              (fun i => if i = 2 then -(179 * Real.pi / 180) else 0) 2 =
      -(Real.pi / 90) := by
  refine ⟨fun a b => by simp [residualX], fun a b => by simp [residualZ],
    xMeanFn_angle, ?_, ?_⟩
  · simp only [zMeanFn, if_pos rfl, List.zip_cons_cons, List.zip_nil_right,
      List.map_cons, List.map_nil, List.sum_cons, List.sum_nil, List.length_cons,
      List.length_nil, if_true]
    have h0 : (Real.sin (179 * Real.pi / 180) * (1 / 2) +
        (Real.sin (-(179 * Real.pi / 180)) * (1 / 2) + 0)) / ((0 + 1 + 1 : ℕ) : ℝ) = 0 := by
      rw [Real.sin_neg]
      push_cast
      ring
    have h1 : (Real.cos (179 * Real.pi / 180) * (1 / 2) +
        (Real.cos (-(179 * Real.pi / 180)) * (1 / 2) + 0)) / ((0 + 1 + 1 : ℕ) : ℝ) =
        Real.cos (179 * Real.pi / 180) / 2 := by
      rw [Real.cos_neg]
      push_cast
      ring
    rw [h0, h1]
    exact atan2_zero_neg _ (div_neg_of_neg_of_pos cos_179deg_neg (by norm_num))
  · simp only [residualZ, if_pos rfl, if_true]
    have hval : 179 * Real.pi / 180 - -(179 * Real.pi / 180) = 179 * Real.pi / 90 := by
      ring
    rw [hval, angle_mod_358]

/-- Witness for C8's mean-function clause at a concrete two-point sigma
list. -/
theorem robot_filter_angle_aware_witness :
    xMeanFn [fun _ => 0, fun _ => 0] [1 / 2, 1 / 2] 2 =
      atan2 ((([fun _ => (0:ℝ), fun _ => 0].zip [(1:ℝ) / 2, 1 / 2]).map
              (fun p => Real.sin (p.1 2) * p.2)).sum)
            ((([fun _ => (0:ℝ), fun _ => 0].zip [(1:ℝ) / 2, 1 / 2]).map
              (fun p => Real.cos (p.1 2) * p.2)).sum) :=
  robot_filter_angle_aware.2.2.1 [fun _ => 0, fun _ => 0] [1 / 2, 1 / 2] (by simp)

end SslPyTools
